import Mathlib

set_option maxRecDepth 100000

/-
Verification of the URL canonicalizer, brand inferencer, retry wrapper and
CSV deduplication of shopmy_scraper.py.

Python strings are modelled as `List Char`.  The pieces of
`urllib.parse` that the scraper calls (`urlparse`, `parse_qs`, `unquote`)
are embedded following the CPython implementation:

* `unquote` decodes `%HH` escapes in one left-to-right pass, keeping
  malformed escapes verbatim; each decoded byte is modelled as the
  character with that code (multi-byte UTF-8 sequences, which no claim
  exercises, are out of scope).
* `urlparse` removes tab/CR/LF, splits off a scheme (lowercased; only
  when the text before the first `:` is nonempty, starts with an ASCII
  letter and consists of scheme characters), a `//`-netloc (up to the
  first `/`, `?` or `#`, with the invalid-IPv6 bracket check raising
  `ValueError`, modelled as `Except.error`), then the fragment at the
  first `#` and the query at the first `?`, and finally the `;params`
  of the last path segment for schemes that use them.
* `parse_qsl` splits the query on `&`, drops empty fields, fields
  without `=` and fields with an empty value, replaces `+` by a space
  and percent-decodes names and values; `parse_qs` aggregates the pairs
  into a dict, modelled as an association list in key-first-occurrence
  order whose value lists are nonempty by construction (first value
  paired with the list of later values).
-/

/-- Python str.lower, modelled for ASCII and the Latin-1 letter range
0xC0-0xDE (which covers every character of the scraper's literals). -/
def pyLower (c : Char) : Char :=
  if 65 ≤ c.toNat ∧ c.toNat ≤ 90 then Char.ofNat (c.toNat + 32)
  else if 192 ≤ c.toNat ∧ c.toNat ≤ 222 ∧ c.toNat ≠ 215 then Char.ofNat (c.toNat + 32)
  else c

/-- Python str.lower over a whole string. -/
def pyLowerL (l : List Char) : List Char := l.map pyLower

/-- ASCII hex digit test, as used by percent-decoding. -/
def isHexDig (c : Char) : Bool :=
  decide ((48 ≤ c.toNat ∧ c.toNat ≤ 57) ∨ (65 ≤ c.toNat ∧ c.toNat ≤ 70) ∨
    (97 ≤ c.toNat ∧ c.toNat ≤ 102))

/-- Value of an ASCII hex digit. -/
def hexVal (c : Char) : Nat :=
  if 48 ≤ c.toNat ∧ c.toNat ≤ 57 then c.toNat - 48
  else if 65 ≤ c.toNat ∧ c.toNat ≤ 70 then c.toNat - 55
  else c.toNat - 87

/-- Fuel-driven percent-decoding pass (the fuel, at least the length of
the list, only makes the recursion structural). -/
def unquoteGo : Nat → List Char → List Char
  | _, [] => []
  | 0, l => l
  | fuel + 1, c :: rest =>
    if c = '%' then
      match rest with
      | a :: b :: rest2 =>
        if isHexDig a ∧ isHexDig b then
          Char.ofNat (16 * hexVal a + hexVal b) :: unquoteGo fuel rest2
        else c :: unquoteGo fuel rest
      | _ => c :: unquoteGo fuel rest
    else c :: unquoteGo fuel rest

/-- Python urllib.parse.unquote: one left-to-right pass replacing each
`%HH` (H a hex digit) by the character with code HH; malformed escapes
are kept verbatim. -/
def unquote (l : List Char) : List Char := unquoteGo l.length l

/-- Split at the first occurrence of a character; none if absent
(Python str.split(sep, 1) when sep occurs). -/
def splitFirst (sep : Char) : List Char → Option (List Char × List Char)
  | [] => none
  | c :: rest =>
    if c = sep then some ([], rest)
    else (splitFirst sep rest).map (fun pr => (c :: pr.1, pr.2))

/-- Python str.split(sep) for a one-character separator. -/
def splitOnChar (sep : Char) : List Char → List (List Char)
  | [] => [[]]
  | c :: rest =>
    let r := splitOnChar sep rest
    if c = sep then [] :: r
    else
      match r with
      | [] => [[c]]
      | s :: ss => (c :: s) :: ss

/-- Whether the first list begins the second. -/
def leadsWith : List Char → List Char → Bool
  | [], _ => true
  | _ :: _, [] => false
  | p :: ps, c :: cs => p == c && leadsWith ps cs

/-- Split at the first occurrence of a substring: the part before it and
the part after it. -/
def splitOnceStr (pat : List Char) : List Char → Option (List Char × List Char)
  | [] => if leadsWith pat [] then some ([], []) else none
  | c :: rest =>
    if leadsWith pat (c :: rest) then some ([], List.drop pat.length (c :: rest))
    else (splitOnceStr pat rest).map (fun pr => (c :: pr.1, pr.2))

/-- Python substring membership (the `in` operator on str). -/
def containsStr (pat l : List Char) : Bool := (splitOnceStr pat l).isSome

/-- Fuel-driven helper for afterLast. -/
def afterLastGo (pat : List Char) : Nat → List Char → List Char
  | 0, l => l
  | fuel + 1, l =>
    match splitOnceStr pat l with
    | none => l
    | some (_, rest) => afterLastGo pat fuel rest

/-- Python url.split(pat)[-1]: the suffix after the last (non-overlapping)
occurrence of pat, or the whole string when pat does not occur. -/
def afterLast (pat l : List Char) : List Char := afterLastGo pat l.length l

/-- Python '&'.join. -/
def joinParts : List (List Char) → List Char
  | [] => []
  | [x] => x
  | x :: y :: rest => x ++ '&' :: joinParts (y :: rest)

/-- Python str.replace('+', ' '), applied by parse_qsl before unquoting. -/
def plusToSpace (l : List Char) : List Char :=
  l.map (fun c => if c = '+' then ' ' else c)

/-- Python urllib.parse.parse_qsl with default arguments: split on `&`,
skip empty fields, fields without `=` and fields with an empty value;
names and values get `+`-to-space then percent-decoding. -/
def parse_qsl (qs : List Char) : List (List Char × List Char) :=
  (splitOnChar '&' qs).filterMap fun nv =>
    if nv = [] then none
    else
      match splitFirst '=' nv with
      | none => none
      | some (n, v) =>
        if v = [] then none
        else some (unquote (plusToSpace n), unquote (plusToSpace v))

/-- The dict built by parse_qs: keys in first-occurrence order, each with
its first value and the list of its later values. -/
abbrev QDict := List (List Char × (List Char × List (List Char)))

/-- One step of parse_qs's aggregation loop: append the value when the
key is already present, otherwise add a new entry at the end. -/
def qsAdd (d : QDict) (k v : List Char) : QDict :=
  if (d.find? (fun e => decide (e.1 = k))).isSome then
    d.map (fun e => if e.1 = k then (e.1, (e.2.1, e.2.2 ++ [v])) else e)
  else
    d ++ [(k, (v, []))]

/-- Python urllib.parse.parse_qs. -/
def parse_qs (qs : List Char) : QDict :=
  (parse_qsl qs).foldl (fun d kv => qsAdd d kv.1 kv.2) []

/-- Dict lookup on the parse_qs result. -/
def qsLook (d : QDict) (k : List Char) : Option (List Char × List (List Char)) :=
  (d.find? (fun e => decide (e.1 = k))).map (fun e => e.2)

/-- First value stored for a key, i.e. Python parsed[k][0]. -/
def qsFirst (d : QDict) (k : List Char) : Option (List Char) :=
  (d.find? (fun e => decide (e.1 = k))).map (fun e => e.2.1)

/-- The six components returned by urlparse. -/
structure UrlParts where
  scheme : List Char
  netloc : List Char
  path : List Char
  params : List Char
  query : List Char
  fragment : List Char
deriving DecidableEq, Repr

/-- Python url[0].isascii() and url[0].isalpha(). -/
def pyIsAlpha (c : Char) : Bool :=
  decide ((65 ≤ c.toNat ∧ c.toNat ≤ 90) ∨ (97 ≤ c.toNat ∧ c.toNat ≤ 122))

/-- Characters allowed in a scheme (letters, digits, `+`, `-`, `.`). -/
def schemeChar (c : Char) : Bool :=
  decide ((65 ≤ c.toNat ∧ c.toNat ≤ 90) ∨ (97 ≤ c.toNat ∧ c.toNat ≤ 122) ∨
    (48 ≤ c.toNat ∧ c.toNat ≤ 57) ∨ c.toNat = 43 ∨ c.toNat = 45 ∨ c.toNat = 46)

/-- Removal of tab, CR and LF, applied by urlsplit to the whole URL. -/
def stripBytes (l : List Char) : List Char :=
  l.filter (fun c => decide (c ≠ '\t' ∧ c ≠ '\r' ∧ c ≠ '\n'))

/-- Whether the URL starts with letter followed by scheme characters up
to a colon (first char checked on the whole URL as in CPython). -/
def headAlpha (l : List Char) : Bool :=
  match l.head? with
  | some c => pyIsAlpha c
  | none => false

/-- Scheme extraction of urlsplit: (scheme, remainder). -/
def splitScheme (url : List Char) : List Char × List Char :=
  match splitFirst ':' url with
  | some (before, after) =>
    if !before.isEmpty && headAlpha url && before.all schemeChar then
      (pyLowerL before, after)
    else ([], url)
  | none => ([], url)

/-- Characters ending the netloc. -/
def netlocEnd (c : Char) : Bool := c = '/' || c = '?' || c = '#'

/-- Netloc extraction: after a leading `//`, up to the first `/`, `?` or
`#`; otherwise empty. Returns (netloc, remainder). -/
def splitNetlocPy (rest : List Char) : List Char × List Char :=
  match rest with
  | '/' :: '/' :: tail =>
    (tail.takeWhile (fun c => !netlocEnd c), tail.dropWhile (fun c => !netlocEnd c))
  | _ => ([], rest)

/-- The invalid-IPv6 check of urlsplit: a bracket without its partner. -/
def bracketBad (nl : List Char) : Bool :=
  decide (('[' ∈ nl ∧ ']' ∉ nl) ∨ (']' ∈ nl ∧ '[' ∉ nl))

/-- Fragment split at the first `#`. -/
def splitFragment (u : List Char) : List Char × List Char :=
  match splitFirst '#' u with
  | some (a, f) => (a, f)
  | none => (u, [])

/-- Query split at the first `?`. -/
def splitQuery (u : List Char) : List Char × List Char :=
  match splitFirst '?' u with
  | some (a, q) => (a, q)
  | none => (u, [])

/-- Python urllib.parse.urlsplit; `Except.error` models the ValueError
raised on an invalid IPv6 netloc. -/
def urlsplitCore (url0 : List Char) : Except Unit UrlParts :=
  let url := stripBytes url0
  let sp := splitScheme url
  let np := splitNetlocPy sp.2
  if bracketBad np.1 then .error ()
  else
    let fq := splitFragment np.2
    let pq := splitQuery fq.1
    .ok ⟨sp.1, np.1, pq.1, [], pq.2, fq.2⟩

/-- The schemes for which urlparse splits `;params` off the path. -/
def usesParams : List (List Char) :=
  ["".data, "ftp".data, "hdl".data, "prospero".data, "http".data, "imap".data,
   "mailto".data, "mms".data, "news".data, "nntp".data, "rtsp".data, "rtspu".data,
   "sftp".data, "shttp".data, "sip".data, "sips".data, "snews".data, "svn".data,
   "svn+ssh".data, "telnet".data, "wais".data, "ws".data, "wss".data, "https".data]

/-- Python urllib.parse._splitparams: split the path at the first `;` of
its last segment. -/
def splitParamsPy (p : List Char) : List Char × List Char :=
  if '/' ∈ p then
    let seg := (p.reverse.takeWhile (fun c => !(c = '/'))).reverse
    let pre := p.take (p.length - seg.length)
    match splitFirst ';' seg with
    | none => (p, [])
    | some (a, b) => (pre ++ a, b)
  else
    match splitFirst ';' p with
    | none => (p, [])
    | some (a, b) => (a, b)

/-- Python urllib.parse.urlparse: urlsplit plus the params split. -/
def urlparse (url : List Char) : Except Unit UrlParts :=
  match urlsplitCore url with
  | .error e => .error e
  | .ok r =>
    if r.scheme ∈ usesParams ∧ ';' ∈ r.path then
      let pp := splitParamsPy r.path
      .ok { r with path := pp.1, params := pp.2 }
    else
      .ok r

/- ----------------------------------------------------------------- -/
/- clean_url (shopmy_scraper.py lines 17-55)                          -/
/- ----------------------------------------------------------------- -/

/-- The shopmy affiliate wrapper pattern of clean_url line 21. -/
def wrapShopmy : List Char := "api.shopmy.us/api/redirect_click".data

/-- The anrdoezrs affiliate wrapper pattern of clean_url line 27. -/
def wrapCj : List Char := "anrdoezrs.net/click".data

/-- The linksynergy affiliate wrapper pattern of clean_url line 31. -/
def wrapLs : List Char := "click.linksynergy.com/deeplink".data

/-- Lines 20-35 of clean_url: the affiliate-wrapper if/elif chain.
An `Except.error` carries the value of the `url` variable at the point
where Python would raise (the value clean_url's bare except returns). -/
def unwrapped (url : List Char) : Except (List Char) (List Char) :=
  if containsStr wrapShopmy url then
    match urlparse url with
    | .error _ => .error url
    | .ok parsed =>
      match qsLook (parse_qs parsed.query) "url".data with
      | some (v, _) => .ok (unquote v)
      | none => .ok url
  else if containsStr wrapCj url then
    .ok (unquote (afterLast "url=".data url))
  else if containsStr wrapLs url then
    match urlparse url with
    | .error _ => .error url
    | .ok parsed =>
      match qsLook (parse_qs parsed.query) "murl".data with
      | some (v, _) => .ok (unquote v)
      | none => .ok url
  else .ok url

/-- The allow list of clean_url line 47. -/
def allowNames : List (List Char) := ["variant".data, "color".data, "size".data]

/-- Line 46-47: the essential_params dict comprehension, keeping the
first value of each query key whose lowercase form is allow-listed. -/
def essentialParams (q : List Char) : List (List Char × List Char) :=
  (parse_qs q).filterMap fun e =>
    if pyLowerL e.1 ∈ allowNames then some (e.1, e.2.1) else none

/-- Line 50: '&'.join of the k=v items. -/
def renderQuery (prs : List (List Char × List Char)) : List Char :=
  joinParts (prs.map (fun kv => kv.1 ++ '=' :: kv.2))

/-- Lines 41-53: rebuild scheme://netloc+path and re-attach the
allow-listed query parameters. -/
def assemble (p : UrlParts) : List Char :=
  let base := p.scheme ++ (':' :: '/' :: '/' :: []) ++ p.netloc ++ p.path
  let ess := essentialParams p.query
  if ess = [] then base else base ++ '?' :: renderQuery ess

/-- clean_url (lines 17-55).  The bare except returns the current value
of the `url` variable: the original input when the failure happens in
the wrapper chain, the unwrapped and decoded value when the final
urlparse fails. -/
def clean_url (url : List Char) : List Char :=
  match unwrapped url with
  | .error v => v
  | .ok u1 =>
    let u2 := unquote u1
    match urlparse u2 with
    | .error _ => u2
    | .ok p => assemble p

/- ----------------------------------------------------------------- -/
/- extract_brand_from_url_and_title (lines 57-111)                    -/
/- ----------------------------------------------------------------- -/

/-- The known_brands table of lines 59-85, in source order (the second
component of the eliou entry reproduces the mojibake of the source). -/
def knownBrands : List (String × String) :=
  [("stella-mccartney", "Stella McCartney"),
   ("lcuppini", "L.Cuppini"),
   ("nanushka", "Nanushka"),
   ("havaianas", "Havaianas"),
   ("gap", "Gap"),
   ("jennikayne", "Jenni Kayne"),
   ("aritzia", "Aritzia"),
   ("jimmy-choo", "Jimmy Choo"),
   ("hunting-season", "Hunting Season"),
   ("cesta", "Cesta Collective"),
   ("eliou", "Ã‰liou"),
   ("reformation", "Reformation"),
   ("nour-hammour", "Nour Hammour"),
   ("khaite", "Khaite"),
   ("staud", "Staud"),
   ("sezane", "Sezane"),
   ("veronica-beard", "Veronica Beard"),
   ("tory-burch", "Tory Burch"),
   ("shonajoy", "Shona Joy"),
   ("anine-bing", "Anine Bing"),
   ("saint-laurent", "Saint Laurent"),
   ("loro-piana", "Loro Piana"),
   ("ralph-lauren", "Ralph Lauren"),
   ("leset", "Le Set"),
   ("co-collections", "CO")]

/-- First known brand whose slug is a substring of the given lowercased
URL component (lines 89-91 and 95-97). -/
def findBrand (s : List Char) : Option (List Char) :=
  (knownBrands.find? (fun kv => containsStr kv.1.data s)).map (fun kv => kv.2.data)

/-- Python str.strip() whitespace (ASCII). -/
def wsPy (c : Char) : Bool :=
  decide (c.toNat = 32 ∨ c.toNat = 9 ∨ c.toNat = 10 ∨ c.toNat = 13 ∨
    c.toNat = 11 ∨ c.toNat = 12)

/-- Python str.strip(). -/
def stripPy (l : List Char) : List Char :=
  ((l.dropWhile wsPy).reverse.dropWhile wsPy).reverse

/-- First known brand whose canonical name occurs case-insensitively in
the title (lines 107-109). -/
def findBrandTitle (title : List Char) : Option (List Char) :=
  (knownBrands.find? (fun kv => containsStr (pyLowerL kv.2.data) (pyLowerL title))).map
    (fun kv => kv.2.data)

/-- extract_brand_from_url_and_title (lines 57-111): host slug match,
then path slug match, then text before the first `|` of the title, then
case-insensitive brand-name search in the title, else "N/A".  The
function calls urlparse without a try, so an unparseable URL raises
(modelled as `Except.error`). -/
def extract_brand_from_url_and_title (url title : List Char) :
    Except Unit (List Char) :=
  match urlparse url with
  | .error e => .error e
  | .ok p1 =>
    match findBrand (pyLowerL p1.netloc) with
    | some b => .ok b
    | none =>
      match urlparse url with
      | .error e => .error e
      | .ok p2 =>
        match findBrand (pyLowerL p2.path) with
        | some b => .ok b
        | none =>
          if title ≠ [] ∧ title ≠ "N/A".data then
            if '|' ∈ title then
              .ok (stripPy (title.takeWhile (fun c => !(c = '|'))))
            else
              match findBrandTitle title with
              | some b => .ok b
              | none => .ok "N/A".data
          else
            .ok "N/A".data

/- ----------------------------------------------------------------- -/
/- retry_with_backoff (lines 121-130)                                 -/
/- ----------------------------------------------------------------- -/

/-- Observable behaviour of one retry_with_backoff run: the returned or
raised outcome (none when the loop body never runs), the sleeps
performed between attempts, and the number of calls to func. -/
structure RetryTrace (ε α : Type) where
  result : Option (Except ε α)
  sleeps : List Nat
  calls : Nat
deriving Repr

/-- The retry loop: `func attempt` is the outcome of the call made in
iteration `attempt`; `remaining` counts the iterations left. -/
def retryGo (func : Nat → Except ε α) (delay : Nat) : Nat → Nat → RetryTrace ε α
  | _, 0 => ⟨none, [], 0⟩
  | attempt, r + 1 =>
    match func attempt with
    | .ok a => ⟨some (.ok a), [], 1⟩
    | .error e =>
      if r = 0 then ⟨some (.error e), [], 1⟩
      else
        let t := retryGo func delay (attempt + 1) r
        ⟨t.result, delay * 2 ^ attempt :: t.sleeps, t.calls + 1⟩

/-- retry_with_backoff with its default arguments max_retries=3 and
initial_delay=1 (the only way the scraper calls it). -/
def retry_with_backoff (func : Nat → Except ε α) : RetryTrace ε α :=
  retryGo func 1 0 3

/- ----------------------------------------------------------------- -/
/- save_to_csv (lines 241-268)                                        -/
/- ----------------------------------------------------------------- -/

/-- A scraped product record (the four CSV fields). -/
structure Product where
  title : String
  brand : String
  image_url : String
  product_url : String
deriving DecidableEq, Repr

/-- The dedup key of save_to_csv line 251. -/
def dedupKey (p : Product) : String × String := (p.title, p.product_url)

/-- Lines 247-254: the dedup loop, with the `seen` set modelled as the
list of keys added so far. -/
def uniqueProducts (seen : List (String × String)) : List Product → List Product
  | [] => []
  | p :: rest =>
    if dedupKey p ∈ seen then uniqueProducts seen rest
    else p :: uniqueProducts (dedupKey p :: seen) rest

/-- Observable outcome of save_to_csv: either the empty-input warning
with no file written, or the file written with the deduplicated rows
and the logged number of removed duplicates. -/
inductive SaveOutcome where
  | skipped
  | written (rows : List Product) (removedDuplicates : Nat)
deriving DecidableEq, Repr

/-- save_to_csv (lines 241-268), abstracting the file system: `skipped`
is the warning-and-return path, `written` carries the rows written
after the header and the count logged at line 256. -/
def save_to_csv (products : List Product) : SaveOutcome :=
  if products.isEmpty then .skipped
  else
    .written (uniqueProducts [] products)
      (products.length - (uniqueProducts [] products).length)

/- ----------------------------------------------------------------- -/
/- Deduplication lemmas (save_to_csv)                                 -/
/- ----------------------------------------------------------------- -/

theorem uniqueProducts_sublist (seen : List (String × String)) (l : List Product) :
    List.Sublist (uniqueProducts seen l) l := by
  induction l generalizing seen with
  | nil => simp [uniqueProducts]
  | cons p rest ih =>
    by_cases h : dedupKey p ∈ seen
    · rw [uniqueProducts, if_pos h]
      exact (ih seen).cons p
    · rw [uniqueProducts, if_neg h]
      exact (ih _).cons₂ p

theorem mem_uniqueProducts_not_seen (seen : List (String × String)) (l : List Product)
    (r : Product) (h : r ∈ uniqueProducts seen l) : dedupKey r ∉ seen := by
  induction l generalizing seen with
  | nil => simp [uniqueProducts] at h
  | cons p rest ih =>
    by_cases hp : dedupKey p ∈ seen
    · rw [uniqueProducts, if_pos hp] at h
      exact ih seen h
    · rw [uniqueProducts, if_neg hp] at h
      rcases List.mem_cons.mp h with rfl | htail
      · exact hp
      · have := ih _ htail
        intro hr
        exact this (List.mem_cons_of_mem _ hr)

theorem uniqueProducts_find (seen : List (String × String)) (l : List Product)
    (r : Product) (h : r ∈ uniqueProducts seen l) :
    l.find? (fun x => decide (dedupKey x = dedupKey r)) = some r := by
  induction l generalizing seen with
  | nil => simp [uniqueProducts] at h
  | cons p rest ih =>
    by_cases hp : dedupKey p ∈ seen
    · rw [uniqueProducts, if_pos hp] at h
      have hr := mem_uniqueProducts_not_seen _ _ _ h
      have hne : ¬ dedupKey p = dedupKey r := fun he => hr (he ▸ hp)
      rw [List.find?_cons, decide_eq_false hne]
      exact ih seen h
    · rw [uniqueProducts, if_neg hp] at h
      rcases List.mem_cons.mp h with rfl | htail
      · rw [List.find?_cons, decide_eq_true rfl]
      · have hr := mem_uniqueProducts_not_seen _ _ _ htail
        have hne : ¬ dedupKey p = dedupKey r := by
          intro he
          exact hr (he ▸ List.mem_cons_self _ _)
        rw [List.find?_cons, decide_eq_false hne]
        exact ih _ htail

theorem uniqueProducts_complete (seen : List (String × String)) (l : List Product)
    (r : Product) (h : r ∈ l) :
    dedupKey r ∈ seen ∨ ∃ q, q ∈ uniqueProducts seen l ∧ dedupKey q = dedupKey r := by
  induction l generalizing seen with
  | nil => simp at h
  | cons p rest ih =>
    rcases List.mem_cons.mp h with rfl | htail
    · by_cases hp : dedupKey r ∈ seen
      · exact .inl hp
      · refine .inr ⟨r, ?_, rfl⟩
        rw [uniqueProducts, if_neg hp]
        exact List.mem_cons_self _ _
    · by_cases hp : dedupKey p ∈ seen
      · rw [uniqueProducts, if_pos hp]
        exact ih seen htail
      · rw [uniqueProducts, if_neg hp]
        rcases ih (dedupKey p :: seen) htail with hin | ⟨q, hq, he⟩
        · rcases List.mem_cons.mp hin with heq | hseen
          · exact .inr ⟨p, List.mem_cons_self _ _, heq.symm⟩
          · exact .inl hseen
        · exact .inr ⟨q, List.mem_cons_of_mem _ hq, he⟩

theorem uniqueProducts_pairwise (seen : List (String × String)) (l : List Product) :
    (uniqueProducts seen l).Pairwise (fun a b => dedupKey a ≠ dedupKey b) := by
  induction l generalizing seen with
  | nil => simp [uniqueProducts]
  | cons p rest ih =>
    by_cases hp : dedupKey p ∈ seen
    · rw [uniqueProducts, if_pos hp]
      exact ih seen
    · rw [uniqueProducts, if_neg hp]
      refine List.Pairwise.cons ?_ (ih _)
      intro b hb he
      exact mem_uniqueProducts_not_seen _ _ _ hb (he ▸ List.mem_cons_self _ _)

/-- C6: save_to_csv keeps exactly the first record of each distinct
(title, product_url) pair, in first-seen order, reports the removed
count as the length difference, and on the spec's three-record example
writes two rows in original order with one duplicate removed. -/
theorem save_to_csv_dedup_first_seen :
    (∀ l : List Product,
      List.Sublist (uniqueProducts [] l) l ∧
      (∀ r, r ∈ uniqueProducts [] l →
        l.find? (fun x => decide (dedupKey x = dedupKey r)) = some r) ∧
      (∀ r, r ∈ l → ∃ q, q ∈ uniqueProducts [] l ∧ dedupKey q = dedupKey r) ∧
      (uniqueProducts [] l).Pairwise (fun a b => dedupKey a ≠ dedupKey b) ∧
      (l ≠ [] → save_to_csv l =
        SaveOutcome.written (uniqueProducts [] l)
          (l.length - (uniqueProducts [] l).length))) ∧
    save_to_csv [⟨"A", "b1", "i1", "u1"⟩, ⟨"A", "b2", "i2", "u1"⟩, ⟨"B", "b3", "i3", "u2"⟩] =
      SaveOutcome.written [⟨"A", "b1", "i1", "u1"⟩, ⟨"B", "b3", "i3", "u2"⟩] 1 := by
  constructor
  · intro l
    refine ⟨uniqueProducts_sublist [] l, fun r h => uniqueProducts_find [] l r h,
      ?_, uniqueProducts_pairwise [] l, ?_⟩
    · intro r h
      rcases uniqueProducts_complete [] l r h with hin | hq
      · simp at hin
      · exact hq
    · intro hne
      rw [save_to_csv, if_neg (by simpa using hne)]
  · rfl

/-- C6 witness: the general theorem instantiated on the example list,
showing the kept duplicate is the first occurrence. -/
theorem save_to_csv_dedup_first_seen_witness :
    ([⟨"A", "b1", "i1", "u1"⟩, ⟨"A", "b2", "i2", "u1"⟩,
      ⟨"B", "b3", "i3", "u2"⟩] : List Product).find?
        (fun x => decide (dedupKey x = dedupKey ⟨"A", "b1", "i1", "u1"⟩)) =
      some ⟨"A", "b1", "i1", "u1"⟩ :=
  (save_to_csv_dedup_first_seen.1 _).2.1 ⟨"A", "b1", "i1", "u1"⟩ (by decide)

/-- C7: on an empty input sequence save_to_csv takes the warn-and-return
path and writes no file. -/
theorem save_to_csv_empty_skips : save_to_csv [] = SaveOutcome.skipped := rfl

/- ----------------------------------------------------------------- -/
/- Retry lemmas (retry_with_backoff)                                  -/
/- ----------------------------------------------------------------- -/

theorem retryGo_calls_le (f : Nat → Except ε α) (delay : Nat) :
    ∀ r attempt, (retryGo f delay attempt r).calls ≤ r := by
  intro r
  induction r with
  | zero => intro a; simp [retryGo]
  | succ n ih =>
    intro attempt
    rw [retryGo]
    cases hf : f attempt with
    | ok a => simp
    | error e =>
      by_cases hn : n = 0
      · simp [hn]
      · have := ih (attempt + 1)
        show (if n = 0 then ({ result := some (.error e), sleeps := [], calls := 1 } :
            RetryTrace ε α)
          else { result := (retryGo f delay (attempt + 1) n).result,
                 sleeps := delay * 2 ^ attempt :: (retryGo f delay (attempt + 1) n).sleeps,
                 calls := (retryGo f delay (attempt + 1) n).calls + 1 }).calls ≤ n + 1
        rw [if_neg hn]
        show (retryGo f delay (attempt + 1) n).calls + 1 ≤ n + 1
        omega

/-- A function whose every attempt fails, raising its attempt index. -/
def allFailNat : Nat → Except Nat Nat := fun i => Except.error i

/-- C8 counterexample: when every attempt fails, the sleeps performed
between attempts are 1s and 2s only — the 4s delay of the claimed
(1s, 2s, 4s) schedule never happens, because no sleep follows the final
attempt. -/
theorem retry_sleeps_counterexample :
    (retry_with_backoff allFailNat).sleeps = [1, 2] ∧
    (retry_with_backoff allFailNat).result = some (.error 2) ∧
    (retry_with_backoff allFailNat).calls = 3 ∧
    (retry_with_backoff allFailNat).sleeps ≠ [1, 2, 4] :=
  ⟨rfl, rfl, rfl, by decide⟩

/-- C8 amended: retry_with_backoff calls the wrapped operation at most 3
times; when all three attempts fail the third exception propagates after
sleeps of 1s then 2s (the 4s value of the doubling schedule is never
slept); when attempt k is the first to succeed its result is returned
after k + 1 calls with sleeps 2^0 .. 2^(k-1). -/
theorem retry_with_backoff_behavior (f : Nat → Except ε α) :
    (retry_with_backoff f).calls ≤ 3 ∧
    (∀ e0 e1 e2, f 0 = .error e0 → f 1 = .error e1 → f 2 = .error e2 →
      retry_with_backoff f = ⟨some (.error e2), [1, 2], 3⟩) ∧
    (∀ k a, k < 3 → f k = .ok a → (∀ j, j < k → ∃ e, f j = .error e) →
      retry_with_backoff f =
        ⟨some (.ok a), (List.range k).map (fun i => 2 ^ i), k + 1⟩) := by
  refine ⟨retryGo_calls_le f 1 3 0, ?_, ?_⟩
  · intro e0 e1 e2 h0 h1 h2
    rw [retry_with_backoff, retryGo, h0]
    rw [show retryGo f 1 1 2 = ⟨some (.error e2), [2], 2⟩ from ?_]
    · rfl
    · rw [retryGo, h1]
      rw [show retryGo f 1 2 1 = ⟨some (.error e2), [], 1⟩ from ?_]
      · rfl
      · rw [retryGo, h2]
        rfl
  · intro k a hk hok hprev
    match k, hk with
    | 0, _ =>
      rw [retry_with_backoff, retryGo, hok]
      rfl
    | 1, _ =>
      obtain ⟨e0, h0⟩ := hprev 0 (by omega)
      rw [retry_with_backoff, retryGo, h0]
      rw [show retryGo f 1 1 2 = ⟨some (.ok a), [], 1⟩ from ?_]
      · rfl
      · rw [retryGo, hok]
    | 2, _ =>
      obtain ⟨e0, h0⟩ := hprev 0 (by omega)
      obtain ⟨e1, h1⟩ := hprev 1 (by omega)
      rw [retry_with_backoff, retryGo, h0]
      rw [show retryGo f 1 1 2 = ⟨some (.ok a), [2], 2⟩ from ?_]
      · rfl
      · rw [retryGo, h1]
        rw [show retryGo f 1 2 1 = ⟨some (.ok a), [], 1⟩ from ?_]
        · rfl
        · rw [retryGo, hok]

/-- A function succeeding on its second attempt. -/
def secondOkNat : Nat → Except Nat Nat :=
  fun i => if i = 1 then Except.ok 7 else Except.error i

/-- C8 witness: the amended theorem applied to a function whose second
attempt succeeds: two calls, one 1s sleep, result 7. -/
theorem retry_with_backoff_behavior_witness :
    retry_with_backoff secondOkNat = ⟨some (.ok 7), [1], 2⟩ := by
  have h := (retry_with_backoff_behavior secondOkNat).2.2 1 7 (by omega) rfl
    (fun j hj => ⟨j, by interval_cases j; rfl⟩)
  simpa using h

/- ----------------------------------------------------------------- -/
/- Concrete clean_url computations                                    -/
/- ----------------------------------------------------------------- -/

/-- C2: the spec's end-to-end example: the shopmy wrapper is removed,
the inner target is percent-decoded (visible in the unwrapped value),
utm_source is dropped and variant=red is kept. -/
theorem clean_url_shopmy_example :
    clean_url "https://api.shopmy.us/api/redirect_click?url=https%3A%2F%2Fstore.example.com%2Fitem%3Fvariant%3Dred%26utm_source%3Dig".data =
      "https://store.example.com/item?variant=red".data ∧
    unwrapped "https://api.shopmy.us/api/redirect_click?url=https%3A%2F%2Fstore.example.com%2Fitem%3Fvariant%3Dred%26utm_source%3Dig".data =
      .ok "https://store.example.com/item?variant=red&utm_source=ig".data :=
  ⟨by rfl, by rfl⟩

/-- C1 counterexample: on a double-encoded input the kept variant value
decodes to text containing literal separators, so the query string of
the returned URL re-parses with the non-allow-listed key utm_source in
it. -/
theorem clean_url_output_query_counterexample :
    clean_url "https://e.com/p?variant=a%2526utm_source%253Dig".data =
      "https://e.com/p?variant=a&utm_source=ig".data ∧
    (urlparse (clean_url "https://e.com/p?variant=a%2526utm_source%253Dig".data)).map
        (fun p => p.query) = .ok "variant=a&utm_source=ig".data ∧
    qsFirst (parse_qs "variant=a&utm_source=ig".data) "utm_source".data =
      some "ig".data ∧
    pyLowerL "utm_source".data ∉ allowNames :=
  ⟨by rfl, by rfl, by rfl, by decide⟩

/-- C3 counterexample: clean_url percent-decodes on every application,
so a second application decodes the output of the first one further. -/
theorem clean_url_not_idempotent_counterexample :
    clean_url (clean_url "https://e.com/a%2541".data) ≠
      clean_url "https://e.com/a%2541".data ∧
    clean_url "https://e.com/a%2541".data = "https://e.com/a%41".data ∧
    clean_url "https://e.com/a%41".data = "https://e.com/aA".data :=
  ⟨by decide, by rfl, by rfl⟩

/-- C4 counterexample: when the parse failure happens after the wrapper
is unwrapped, the bare except returns the partially transformed value,
not the original input. -/
theorem clean_url_fail_open_counterexample :
    clean_url "https://api.shopmy.us/api/redirect_click?url=https%3A%2F%2F%5Bx".data ≠
      "https://api.shopmy.us/api/redirect_click?url=https%3A%2F%2F%5Bx".data ∧
    clean_url "https://api.shopmy.us/api/redirect_click?url=https%3A%2F%2F%5Bx".data =
      "https://[x".data ∧
    urlparse "https://[x".data = .error () :=
  ⟨by decide, by rfl, by rfl⟩

/-- C10: brand slug matching is plain substring containment on the
lowercased host: the host singapore.example.com contains the slug gap
inside a longer word (it is not one of the dot-separated host labels),
yet brand inference returns Gap. -/
theorem extract_brand_substring_containment :
    extract_brand_from_url_and_title "https://singapore.example.com/shoes".data
      "Some Title".data = .ok "Gap".data ∧
    containsStr "gap".data (pyLowerL "singapore.example.com".data) = true ∧
    "gap".data ∉ splitOnChar '.' "singapore.example.com".data :=
  ⟨by rfl, by rfl, by decide⟩

/-- C5: brand inference priority: host slug match wins, then path slug
match, then the trimmed text before the first `|` of the title taken
verbatim, then a case-insensitive known-brand-name search in the title,
else the sentinel N/A (also when the title is empty or the sentinel);
in particular a title "Acme Co | Classic Tote" with no URL match yields
"Acme Co". -/
theorem extract_brand_priority_order (url title : List Char) (p : UrlParts)
    (hp : urlparse url = .ok p) :
    (∀ b, findBrand (pyLowerL p.netloc) = some b →
      extract_brand_from_url_and_title url title = .ok b) ∧
    (findBrand (pyLowerL p.netloc) = none →
      ∀ b, findBrand (pyLowerL p.path) = some b →
        extract_brand_from_url_and_title url title = .ok b) ∧
    (findBrand (pyLowerL p.netloc) = none → findBrand (pyLowerL p.path) = none →
      title ≠ [] → title ≠ "N/A".data → '|' ∈ title →
      extract_brand_from_url_and_title url title =
        .ok (stripPy (title.takeWhile (fun c => !(c = '|'))))) ∧
    (findBrand (pyLowerL p.netloc) = none → findBrand (pyLowerL p.path) = none →
      title ≠ [] → title ≠ "N/A".data → '|' ∉ title →
      ∀ b, findBrandTitle title = some b →
        extract_brand_from_url_and_title url title = .ok b) ∧
    (findBrand (pyLowerL p.netloc) = none → findBrand (pyLowerL p.path) = none →
      title ≠ [] → title ≠ "N/A".data → '|' ∉ title → findBrandTitle title = none →
      extract_brand_from_url_and_title url title = .ok "N/A".data) ∧
    (findBrand (pyLowerL p.netloc) = none → findBrand (pyLowerL p.path) = none →
      (title = [] ∨ title = "N/A".data) →
      extract_brand_from_url_and_title url title = .ok "N/A".data) ∧
    extract_brand_from_url_and_title "https://store.example.com/x".data
      "Acme Co | Classic Tote".data = .ok "Acme Co".data := by
  refine ⟨?_, ?_, ?_, ?_, ?_, ?_, by rfl⟩
  · intro b hb
    simp only [extract_brand_from_url_and_title, hp, hb]
  · intro hn b hb
    simp only [extract_brand_from_url_and_title, hp, hn, hb]
  · intro hn hpth h1 h2 h3
    simp only [extract_brand_from_url_and_title, hp, hn, hpth]
    rw [if_pos ⟨h1, h2⟩, if_pos h3]
  · intro hn hpth h1 h2 h3 b hb
    simp only [extract_brand_from_url_and_title, hp, hn, hpth, hb]
    rw [if_pos ⟨h1, h2⟩, if_neg h3]
  · intro hn hpth h1 h2 h3 hb
    simp only [extract_brand_from_url_and_title, hp, hn, hpth, hb]
    rw [if_pos ⟨h1, h2⟩, if_neg h3]
  · intro hn hpth ht
    simp only [extract_brand_from_url_and_title, hp, hn, hpth]
    rw [if_neg (by rcases ht with h | h <;> simp [h])]

/-- C5 witness: the priority theorem applied to a URL whose host
contains the aritzia slug. -/
theorem extract_brand_priority_order_witness :
    extract_brand_from_url_and_title "https://www.aritzia.com/x".data
      "whatever".data = .ok "Aritzia".data :=
  (extract_brand_priority_order "https://www.aritzia.com/x".data "whatever".data
    ⟨"https".data, "www.aritzia.com".data, "/x".data, [], [], []⟩ rfl).1
    "Aritzia".data rfl

/- ----------------------------------------------------------------- -/
/- Fail-open behaviour of clean_url                                   -/
/- ----------------------------------------------------------------- -/

theorem unwrapped_error_eq (u v : List Char) (h : unwrapped u = .error v) : v = u := by
  unfold unwrapped at h
  repeat' split at h
  all_goals simp_all

/-- C4 amended: clean_url never propagates a parse failure, returning
the current value of the url variable instead: the original input
unchanged when the failure happens during the wrapper chain (before any
transformation), but the partially transformed (unwrapped and
percent-decoded) value when the final parse fails. -/
theorem clean_url_fail_open_current_value (u u1 : List Char) :
    (unwrapped u = .error u1 → clean_url u = u1 ∧ u1 = u) ∧
    (unwrapped u = .ok u1 → urlparse (unquote u1) = .error () →
      clean_url u = unquote u1) := by
  constructor
  · intro h
    refine ⟨?_, unwrapped_error_eq u u1 h⟩
    unfold clean_url
    rw [h]
  · intro h hp
    unfold clean_url
    rw [h]
    simp only [hp]

/-- C4 witness: a wrapper-free input whose percent-decoded form has an
unmatched bracket in the netloc, so the final parse fails and the
decoded (not original) value is returned. -/
theorem clean_url_fail_open_current_value_witness :
    clean_url "https://%5Bz/e".data = unquote "https://%5Bz/e".data :=
  (clean_url_fail_open_current_value "https://%5Bz/e".data "https://%5Bz/e".data).2
    rfl rfl

/- ----------------------------------------------------------------- -/
/- parse_qs aggregation lemmas                                        -/
/- ----------------------------------------------------------------- -/

/-- Keys of a pair list in order of first occurrence and not yet seen:
the reference order against which the dict key order is stated. -/
def newKeys (seen : List (List Char)) : List (List Char × List Char) → List (List Char)
  | [] => []
  | kv :: rest =>
    if kv.1 ∈ seen then newKeys seen rest else kv.1 :: newKeys (kv.1 :: seen) rest

theorem newKeys_congr (s t : List (List Char)) (ps : List (List Char × List Char))
    (h : ∀ x, x ∈ s ↔ x ∈ t) : newKeys s ps = newKeys t ps := by
  induction ps generalizing s t with
  | nil => rfl
  | cons kv rest ih =>
    rw [newKeys, newKeys]
    by_cases hk : kv.1 ∈ s
    · rw [if_pos hk, if_pos ((h kv.1).mp hk)]
      exact ih s t h
    · rw [if_neg hk, if_neg (fun hm => hk ((h kv.1).mpr hm))]
      rw [ih (kv.1 :: s) (kv.1 :: t) (by intro x; simp [h x])]

theorem newKeys_not_mem_seen (ps : List (List Char × List Char)) :
    ∀ (seen : List (List Char)) (k), k ∈ newKeys seen ps → k ∉ seen := by
  induction ps with
  | nil => intro seen k h; simp [newKeys] at h
  | cons kv rest ih =>
    intro seen k h
    rw [newKeys] at h
    by_cases hk : kv.1 ∈ seen
    · rw [if_pos hk] at h
      exact ih seen k h
    · rw [if_neg hk] at h
      rcases List.mem_cons.mp h with rfl | htail
      · exact hk
      · intro hs
        exact ih _ _ htail (List.mem_cons_of_mem _ hs)

theorem newKeys_nodup (ps : List (List Char × List Char)) :
    ∀ seen, (newKeys seen ps).Nodup := by
  induction ps with
  | nil => intro seen; simp [newKeys]
  | cons kv rest ih =>
    intro seen
    rw [newKeys]
    by_cases hk : kv.1 ∈ seen
    · rw [if_pos hk]
      exact ih seen
    · rw [if_neg hk]
      refine List.nodup_cons.mpr ⟨?_, ih _⟩
      intro hmem
      exact newKeys_not_mem_seen rest _ _ hmem (List.mem_cons_self _ _)

theorem qsHasKey_iff (d : QDict) (k : List Char) :
    (d.find? (fun e => decide (e.1 = k))).isSome = true ↔ k ∈ d.map Prod.fst := by
  induction d with
  | nil => simp
  | cons e es ih =>
    rw [List.find?_cons, List.map_cons]
    by_cases he : e.1 = k
    · simp [he]
    · rw [decide_eq_false he]
      simp only [List.mem_cons, ih]
      constructor
      · exact fun h => .inr h
      · rintro (h | h)
        · exact absurd h.symm he
        · exact h

theorem map_fst_qsAdd (d : QDict) (k v : List Char) :
    (qsAdd d k v).map Prod.fst =
      if k ∈ d.map Prod.fst then d.map Prod.fst else d.map Prod.fst ++ [k] := by
  unfold qsAdd
  by_cases hk : (d.find? (fun e => decide (e.1 = k))).isSome = true
  · rw [if_pos hk, if_pos ((qsHasKey_iff d k).mp hk)]
    rw [List.map_map]
    apply List.map_congr_left
    intro e he
    simp only [Function.comp]
    split <;> rfl
  · rw [if_neg hk, if_neg (fun hmem => hk ((qsHasKey_iff d k).mpr hmem))]
    simp

theorem parse_qs_keys_aux (ps : List (List Char × List Char)) :
    ∀ (d : QDict),
      ((ps.foldl (fun d kv => qsAdd d kv.1 kv.2) d).map Prod.fst) =
        d.map Prod.fst ++ newKeys (d.map Prod.fst) ps := by
  induction ps with
  | nil => intro d; simp [newKeys]
  | cons kv rest ih =>
    intro d
    rw [List.foldl_cons, ih (qsAdd d kv.1 kv.2), map_fst_qsAdd, newKeys]
    by_cases hk : kv.1 ∈ d.map Prod.fst
    · rw [if_pos hk, if_pos hk]
    · rw [if_neg hk, if_neg hk]
      rw [newKeys_congr (d.map Prod.fst ++ [kv.1]) (kv.1 :: d.map Prod.fst) rest
        (by intro x; simp [or_comm])]
      simp

/-- The parse_qs dict lists its keys in first-occurrence order of the
parse_qsl pairs. -/
theorem parse_qs_keys (q : List Char) :
    (parse_qs q).map Prod.fst = newKeys [] (parse_qsl q) := by
  rw [parse_qs, parse_qs_keys_aux (parse_qsl q) []]
  rfl

theorem find?_append_some {α : Type} {p : α → Bool} {l1 l2 : List α} {a : α}
    (h : l1.find? p = some a) : (l1 ++ l2).find? p = some a := by
  induction l1 with
  | nil => simp at h
  | cons x xs ih =>
    rw [List.cons_append, List.find?_cons]
    rw [List.find?_cons] at h
    cases hp : p x with
    | true => rw [hp] at h; exact h
    | false => rw [hp] at h; exact ih h

theorem find?_append_none {α : Type} {p : α → Bool} {l1 l2 : List α}
    (h : l1.find? p = none) : (l1 ++ l2).find? p = l2.find? p := by
  induction l1 with
  | nil => simp
  | cons x xs ih =>
    rw [List.cons_append, List.find?_cons]
    rw [List.find?_cons] at h
    cases hp : p x with
    | true => rw [hp] at h; exact absurd h (by simp)
    | false => rw [hp] at h; exact ih h

theorem qsFirst_map_update (d : QDict) (k' v' k : List Char) :
    qsFirst (d.map (fun e => if e.1 = k' then (e.1, (e.2.1, e.2.2 ++ [v'])) else e)) k =
      qsFirst d k := by
  induction d with
  | nil => rfl
  | cons e es ih =>
    rw [List.map_cons]
    unfold qsFirst
    rw [List.find?_cons, List.find?_cons]
    have h1 : (if e.1 = k' then (e.1, (e.2.1, e.2.2 ++ [v'])) else e).1 = e.1 := by
      split <;> rfl
    have h21 : (if e.1 = k' then (e.1, (e.2.1, e.2.2 ++ [v'])) else e).2.1 = e.2.1 := by
      split <;> rfl
    rw [h1]
    by_cases he : e.1 = k
    · rw [decide_eq_true he]
      simp [h21]
    · rw [decide_eq_false he]
      exact ih

theorem qsFirst_qsAdd_of_some (d : QDict) (k' v' k v : List Char)
    (h : qsFirst d k = some v) : qsFirst (qsAdd d k' v') k = some v := by
  unfold qsAdd
  by_cases hk : (d.find? (fun e => decide (e.1 = k'))).isSome = true
  · rw [if_pos hk, qsFirst_map_update]
    exact h
  · rw [if_neg hk]
    unfold qsFirst at h ⊢
    cases hf : d.find? (fun e => decide (e.1 = k)) with
    | none => rw [hf] at h; simp at h
    | some e =>
      rw [hf] at h
      rw [find?_append_some hf]
      exact h

theorem qsFirst_qsAdd_of_none (d : QDict) (k' v' k : List Char)
    (h : qsFirst d k = none) :
    qsFirst (qsAdd d k' v') k = if k = k' then some v' else none := by
  have hfn : d.find? (fun e => decide (e.1 = k)) = none := by
    unfold qsFirst at h
    cases hf : d.find? (fun e => decide (e.1 = k)) with
    | none => rfl
    | some e => rw [hf] at h; simp at h
  unfold qsAdd
  by_cases hk : (d.find? (fun e => decide (e.1 = k'))).isSome = true
  · rw [if_pos hk, qsFirst_map_update]
    by_cases hkk : k = k'
    · subst hkk
      rw [hfn] at hk
      simp at hk
    · rw [if_neg hkk]
      exact h
  · rw [if_neg hk]
    unfold qsFirst
    rw [find?_append_none hfn, List.find?_cons]
    by_cases hkk : k = k'
    · rw [decide_eq_true hkk.symm, if_pos hkk]
      rfl
    · rw [decide_eq_false (fun he => hkk he.symm), if_neg hkk]
      rfl

theorem qsFirst_foldl_of_some (ps : List (List Char × List Char)) :
    ∀ (d : QDict) (k v : List Char), qsFirst d k = some v →
      qsFirst (ps.foldl (fun d kv => qsAdd d kv.1 kv.2) d) k = some v := by
  induction ps with
  | nil => intro d k v h; exact h
  | cons kv rest ih =>
    intro d k v h
    rw [List.foldl_cons]
    exact ih _ k v (qsFirst_qsAdd_of_some _ _ _ _ _ h)

/-- Folding parse_qsl pairs into an empty-at-k dict records, as the first
value of k, the value of the first pair whose name is k. -/
theorem qsFirst_foldl_of_none (ps : List (List Char × List Char)) :
    ∀ (d : QDict) (k : List Char), qsFirst d k = none →
      qsFirst (ps.foldl (fun d kv => qsAdd d kv.1 kv.2) d) k =
        (ps.find? (fun pr => decide (pr.1 = k))).map Prod.snd := by
  induction ps with
  | nil => intro d k h; simpa using h
  | cons kv rest ih =>
    intro d k h
    rw [List.foldl_cons, List.find?_cons]
    by_cases he : kv.1 = k
    · rw [decide_eq_true he]
      have hs : qsFirst (qsAdd d kv.1 kv.2) k = some kv.2 := by
        rw [qsFirst_qsAdd_of_none _ _ _ _ h, if_pos he.symm]
      rw [qsFirst_foldl_of_some rest _ k kv.2 hs]
      rfl
    · rw [decide_eq_false he]
      apply ih
      rw [qsFirst_qsAdd_of_none _ _ _ _ h, if_neg (fun hkk => he hkk.symm)]

theorem find?_of_mem_nodup (d : QDict) (k : List Char) (x : List Char × List (List Char))
    (hnd : (d.map Prod.fst).Nodup) (hmem : (k, x) ∈ d) :
    d.find? (fun e => decide (e.1 = k)) = some (k, x) := by
  induction d with
  | nil => simp at hmem
  | cons e es ih =>
    rw [List.map_cons] at hnd
    rw [List.find?_cons]
    rcases List.mem_cons.mp hmem with heq | htail
    · subst heq
      rw [decide_eq_true rfl]
    · have he : ¬ e.1 = k := by
        intro hek
        have hk : k ∈ es.map Prod.fst := List.mem_map.mpr ⟨(k, x), htail, rfl⟩
        exact (List.nodup_cons.mp hnd).1 (hek ▸ hk)
      rw [decide_eq_false he]
      exact ih (List.nodup_cons.mp hnd).2 htail

theorem mem_essentialParams (q : List Char) (k v : List Char)
    (h : (k, v) ∈ essentialParams q) :
    pyLowerL k ∈ allowNames ∧ ∃ rest, (k, (v, rest)) ∈ parse_qs q := by
  unfold essentialParams at h
  rcases List.mem_filterMap.mp h with ⟨⟨k', v', r'⟩, he, hfe⟩
  by_cases ha : pyLowerL k' ∈ allowNames
  · rw [if_pos ha] at hfe
    have hkv : k' = k ∧ v' = v := by simpa using hfe
    rcases hkv with ⟨rfl, rfl⟩
    exact ⟨ha, r', he⟩
  · rw [if_neg ha] at hfe
    cases hfe

theorem map_fst_filterAllow (d : QDict) :
    ((d.filterMap fun e =>
        if pyLowerL e.1 ∈ allowNames then some (e.1, e.2.1) else none).map Prod.fst) =
      (d.map Prod.fst).filter (fun k => decide (pyLowerL k ∈ allowNames)) := by
  induction d with
  | nil => rfl
  | cons e es ih =>
    rw [List.filterMap_cons, List.map_cons, List.filter_cons]
    by_cases ha : pyLowerL e.1 ∈ allowNames
    · rw [if_pos ha, decide_eq_true ha, if_pos rfl, List.map_cons, ih]
    · rw [if_neg ha, decide_eq_false ha, ih]
      simp

/-- C9: on a successful parse, clean_url rebuilds the URL from
essential_params, and each kept key carries the value of the first
parse_qsl pair with that name — later values of a repeated key are
dropped. -/
theorem clean_url_repeated_key_first_value (u u1 : List Char) (p : UrlParts)
    (h : unwrapped u = .ok u1) (hp : urlparse (unquote u1) = .ok p) :
    clean_url u = assemble p ∧
    ∀ k v, (k, v) ∈ essentialParams p.query →
      ((parse_qsl p.query).find? (fun pr => decide (pr.1 = k))).map Prod.snd = some v := by
  constructor
  · unfold clean_url
    rw [h]
    simp only [hp]
  · intro k v hm
    obtain ⟨_, rest, hmem⟩ := mem_essentialParams _ _ _ hm
    have hnd : ((parse_qs p.query).map Prod.fst).Nodup := by
      rw [parse_qs_keys]
      exact newKeys_nodup _ _
    have hqf : qsFirst (parse_qs p.query) k = some v := by
      unfold qsFirst
      rw [find?_of_mem_nodup _ _ _ hnd hmem]
      rfl
    have hfold := qsFirst_foldl_of_none (parse_qsl p.query) [] k rfl
    rw [parse_qs] at hqf
    exact hfold.symm.trans hqf

/-- C9 witness: on query variant=red&variant=blue the kept value is the
first one, red. -/
theorem clean_url_repeated_key_first_value_witness :
    ((parse_qsl "variant=red&variant=blue".data).find?
      (fun pr => decide (pr.1 = "variant".data))).map Prod.snd = some "red".data :=
  (clean_url_repeated_key_first_value "https://e.com/p?variant=red&variant=blue".data
    "https://e.com/p?variant=red&variant=blue".data
    ⟨"https".data, "e.com".data, "/p".data, [], "variant=red&variant=blue".data, []⟩
    rfl rfl).2 "variant".data "red".data (by decide)

/-- C1 amended: on a successful parse every key clean_url re-attaches
has an allow-listed lowercase form and the re-attached keys are exactly
the allow-listed ones in first-occurrence order of the query; however
(see the counterexample) re-parsing the output URL can still show other
keys, because kept values are percent-decoded and re-joined without
re-encoding. -/
theorem clean_url_allowlisted_reattachment (u u1 : List Char) (p : UrlParts)
    (h : unwrapped u = .ok u1) (hp : urlparse (unquote u1) = .ok p) :
    clean_url u = assemble p ∧
    (∀ k v, (k, v) ∈ essentialParams p.query → pyLowerL k ∈ allowNames) ∧
    (essentialParams p.query).map Prod.fst =
      (newKeys [] (parse_qsl p.query)).filter
        (fun k => decide (pyLowerL k ∈ allowNames)) := by
  refine ⟨?_, ?_, ?_⟩
  · unfold clean_url
    rw [h]
    simp only [hp]
  · intro k v hm
    exact (mem_essentialParams _ _ _ hm).1
  · unfold essentialParams
    rw [map_fst_filterAllow, parse_qs_keys]

/-- C1 witness: the amended theorem applied to a query mixing variant,
utm_source and SIZE: the re-attached keys are variant and SIZE, in
order. -/
theorem clean_url_allowlisted_reattachment_witness :
    (essentialParams "variant=red&utm_source=ig&SIZE=m".data).map Prod.fst =
      (newKeys [] (parse_qsl "variant=red&utm_source=ig&SIZE=m".data)).filter
        (fun k => decide (pyLowerL k ∈ allowNames)) :=
  (clean_url_allowlisted_reattachment
    "https://store.example.com/item?variant=red&utm_source=ig&SIZE=m".data
    "https://store.example.com/item?variant=red&utm_source=ig&SIZE=m".data
    ⟨"https".data, "store.example.com".data, "/item".data, [],
     "variant=red&utm_source=ig&SIZE=m".data, []⟩ rfl rfl).2.2

/- ----------------------------------------------------------------- -/
/- Canonical fixed forms of clean_url                                 -/
/- ----------------------------------------------------------------- -/

/-- Canonical rendering scheme://host path ?query, the exact shape that
assemble produces, used to state the amended idempotence claim. -/
def renderUrl (s h p : List Char) (prs : List (List Char × List Char)) : List Char :=
  s ++ (':' :: '/' :: '/' :: []) ++ h ++ p ++
    (if prs = [] then [] else '?' :: renderQuery prs)

/-- Lowercase scheme characters (letters already lowercased, digits,
`+`, `-`, `.`). -/
def schemeLowChar (c : Char) : Bool :=
  decide ((97 ≤ c.toNat ∧ c.toNat ≤ 122) ∨ (48 ≤ c.toNat ∧ c.toNat ≤ 57) ∨
    c.toNat = 43 ∨ c.toNat = 45 ∨ c.toNat = 46)

/-- A nonempty already-lowercase scheme starting with a letter. -/
def schemeOkB (s : List Char) : Bool :=
  match s with
  | [] => false
  | c :: _ => decide (97 ≤ c.toNat ∧ c.toNat ≤ 122) && s.all schemeLowChar

/-- No character of the list belongs to the given exclusion set. -/
def plainOk (bad l : List Char) : Bool := l.all (fun c => decide (c ∉ bad))

/-- A host free of delimiters, brackets, percent escapes and the bytes
urlsplit strips. -/
def hostOkB (h : List Char) : Bool :=
  plainOk ['/', '?', '#', '[', ']', '%', '\t', '\r', '\n'] h

/-- An empty or slash-led path free of query/fragment delimiters,
percent escapes, params semicolons and stripped bytes. -/
def pathOkB (p : List Char) : Bool :=
  (match p with
   | [] => true
   | c :: _ => decide (c = '/')) &&
  plainOk ['?', '#', '%', ';', '\t', '\r', '\n'] p

/-- An allow-listed key and a nonempty value, both free of the query
metacharacters and escapes that a re-parse would reinterpret. -/
def pairOkB (kv : List Char × List Char) : Bool :=
  decide (pyLowerL kv.1 ∈ allowNames) &&
  plainOk ['&', '=', '%', '+', '#', '?', '\t', '\r', '\n'] kv.1 &&
  !kv.2.isEmpty && plainOk ['&', '=', '%', '+', '#', '\t', '\r', '\n'] kv.2

/- ----------------------------------------------------------------- -/
/- Generic helper lemmas                                              -/
/- ----------------------------------------------------------------- -/

theorem map_self_of {α : Type} {f : α → α} {l : List α}
    (h : ∀ x ∈ l, f x = x) : l.map f = l := by
  induction l with
  | nil => rfl
  | cons x xs ih =>
    rw [List.map_cons, h x (List.mem_cons_self _ _),
      ih (fun y hy => h y (List.mem_cons_of_mem _ hy))]

theorem filter_self_of {α : Type} {p : α → Bool} {l : List α}
    (h : ∀ x ∈ l, p x = true) : l.filter p = l := by
  induction l with
  | nil => rfl
  | cons x xs ih =>
    rw [List.filter_cons, if_pos (h x (List.mem_cons_self _ _)),
      ih (fun y hy => h y (List.mem_cons_of_mem _ hy))]

theorem plainOk_mem_ne {bad l : List Char} (h : plainOk bad l = true) {c : Char}
    (hc : c ∈ l) {x : Char} (hx : x ∈ bad) : c ≠ x := by
  intro he
  exact of_decide_eq_true (List.all_eq_true.mp h c hc) (he ▸ hx)

theorem splitFirst_not_mem {sep : Char} {l : List Char} (h : sep ∉ l) :
    splitFirst sep l = none := by
  induction l with
  | nil => rfl
  | cons c rest ih =>
    have hcs : ¬ c = sep := fun he => h (he ▸ List.mem_cons_self _ _)
    rw [splitFirst, if_neg hcs, ih (fun hm => h (List.mem_cons_of_mem _ hm))]
    rfl

theorem splitFirst_append {sep : Char} (a b : List Char) (h : sep ∉ a) :
    splitFirst sep (a ++ sep :: b) = some (a, b) := by
  induction a with
  | nil => simp [splitFirst]
  | cons c rest ih =>
    have hcs : ¬ c = sep := fun he => h (he ▸ List.mem_cons_self _ _)
    rw [List.cons_append, splitFirst, if_neg hcs,
      ih (fun hm => h (List.mem_cons_of_mem _ hm))]
    rfl

theorem takeWhile_append_of {q : Char → Bool} {a b : List Char}
    (ha : ∀ x ∈ a, q x = true)
    (hb : ∀ c, b.head? = some c → q c = false) :
    (a ++ b).takeWhile q = a ∧ (a ++ b).dropWhile q = b := by
  induction a with
  | nil =>
    rcases b with _ | ⟨c, bs⟩
    · simp
    · have hc := hb c rfl
      rw [List.nil_append]
      constructor
      · simp [List.takeWhile_cons, hc]
      · simp [List.dropWhile_cons, hc]
  | cons x xs ih =>
    have hx := ha x (List.mem_cons_self _ _)
    have ihr := ih (fun y hy => ha y (List.mem_cons_of_mem _ hy))
    rw [List.cons_append]
    constructor
    · simp [List.takeWhile_cons, hx, ihr.1]
    · simp [List.dropWhile_cons, hx, ihr.2]

theorem unquoteGo_succ_cons (n : Nat) (c : Char) (rest : List Char) :
    unquoteGo (n + 1) (c :: rest) =
      if c = '%' then
        (match rest with
         | a :: b :: rest2 =>
           if isHexDig a ∧ isHexDig b then
             Char.ofNat (16 * hexVal a + hexVal b) :: unquoteGo n rest2
           else c :: unquoteGo n rest
         | _ => c :: unquoteGo n rest)
      else c :: unquoteGo n rest := rfl

theorem unquoteGo_id (fuel : Nat) : ∀ l : List Char, '%' ∉ l → unquoteGo fuel l = l := by
  induction fuel with
  | zero => intro l _; cases l <;> rfl
  | succ n ih =>
    intro l h
    rcases l with _ | ⟨c, rest⟩
    · rfl
    · have hc : ¬ c = '%' := fun he => h (he ▸ List.mem_cons_self _ _)
      rw [unquoteGo_succ_cons, if_neg hc,
        ih rest (fun hm => h (List.mem_cons_of_mem _ hm))]

theorem unquote_id {l : List Char} (h : '%' ∉ l) : unquote l = l :=
  unquoteGo_id _ l h

theorem plusToSpace_id {l : List Char} (h : '+' ∉ l) : plusToSpace l = l := by
  apply map_self_of
  intro c hc
  have hne : ¬ c = '+' := fun he => h (he ▸ hc)
  rw [if_neg hne]

theorem splitOnChar_not_mem {sep : Char} {l : List Char} (h : sep ∉ l) :
    splitOnChar sep l = [l] := by
  induction l with
  | nil => rfl
  | cons c rest ih =>
    have hcs : ¬ c = sep := fun he => h (he ▸ List.mem_cons_self _ _)
    have hr := ih (fun hm => h (List.mem_cons_of_mem _ hm))
    rw [splitOnChar]
    simp [hr, hcs]

theorem splitOnChar_append {sep : Char} (x t : List Char) (h : sep ∉ x) :
    splitOnChar sep (x ++ sep :: t) = x :: splitOnChar sep t := by
  induction x with
  | nil => simp [splitOnChar]
  | cons c xs ih =>
    have hcs : ¬ c = sep := fun he => h (he ▸ List.mem_cons_self _ _)
    have hr := ih (fun hm => h (List.mem_cons_of_mem _ hm))
    rw [List.cons_append, splitOnChar]
    simp [hr, hcs]

theorem pairOkB_parts {kv : List Char × List Char} (h : pairOkB kv = true) :
    pyLowerL kv.1 ∈ allowNames ∧
    plainOk ['&', '=', '%', '+', '#', '?', '\t', '\r', '\n'] kv.1 = true ∧
    kv.2 ≠ [] ∧
    plainOk ['&', '=', '%', '+', '#', '\t', '\r', '\n'] kv.2 = true := by
  unfold pairOkB at h
  simp only [Bool.and_eq_true] at h
  obtain ⟨⟨⟨h1, h2⟩, h3⟩, h4⟩ := h
  refine ⟨of_decide_eq_true h1, h2, ?_, h4⟩
  intro he
  rw [he] at h3
  exact absurd h3 (by decide)

theorem splitOnChar_joinParts (ls : List (List Char)) (hne : ls ≠ [])
    (h : ∀ x ∈ ls, '&' ∉ x) : splitOnChar '&' (joinParts ls) = ls := by
  induction ls with
  | nil => exact absurd rfl hne
  | cons x xs ih =>
    rcases xs with _ | ⟨y, ys⟩
    · exact splitOnChar_not_mem (h x (List.mem_cons_self _ _))
    · rw [joinParts, splitOnChar_append x _ (h x (List.mem_cons_self _ _)),
        ih (by simp) (fun z hz => h z (List.mem_cons_of_mem _ hz))]

/-- The parse_qsl field action undoes the rendering of one canonical
key/value pair. -/
theorem qsl_step (k v : List Char)
    (hkeq : '=' ∉ k) (hkplus : '+' ∉ k) (hkpct : '%' ∉ k)
    (hv : v ≠ []) (hvplus : '+' ∉ v) (hvpct : '%' ∉ v) :
    (if (k ++ '=' :: v) = [] then none
     else match splitFirst '=' (k ++ '=' :: v) with
       | none => none
       | some (n, w) =>
         if w = [] then none
         else some (unquote (plusToSpace n), unquote (plusToSpace w))) = some (k, v) := by
  rw [if_neg (by simp), splitFirst_append k v hkeq]
  show (if v = [] then none
    else some (unquote (plusToSpace k), unquote (plusToSpace v))) = some (k, v)
  rw [if_neg hv, plusToSpace_id hkplus, plusToSpace_id hvplus,
    unquote_id hkpct, unquote_id hvpct]

theorem mem_renderQuery (c : Char) (prs : List (List Char × List Char))
    (h : c ∈ renderQuery prs) :
    c = '&' ∨ c = '=' ∨ ∃ kv, kv ∈ prs ∧ (c ∈ kv.1 ∨ c ∈ kv.2) := by
  induction prs with
  | nil => simp [renderQuery, joinParts] at h
  | cons kv rest ih =>
    rcases rest with _ | ⟨kv2, rest2⟩
    · simp only [renderQuery, List.map_cons, List.map_nil, joinParts] at h
      rcases List.mem_append.mp h with h1 | h2
      · exact .inr (.inr ⟨kv, List.mem_cons_self _ _, .inl h1⟩)
      · rcases List.mem_cons.mp h2 with rfl | h3
        · exact .inr (.inl rfl)
        · exact .inr (.inr ⟨kv, List.mem_cons_self _ _, .inr h3⟩)
    · simp only [renderQuery, List.map_cons, joinParts] at h
      rcases List.mem_append.mp h with h1 | h2
      · rcases List.mem_append.mp h1 with h3 | h4
        · exact .inr (.inr ⟨kv, List.mem_cons_self _ _, .inl h3⟩)
        · rcases List.mem_cons.mp h4 with rfl | h5
          · exact .inr (.inl rfl)
          · exact .inr (.inr ⟨kv, List.mem_cons_self _ _, .inr h5⟩)
      · rcases List.mem_cons.mp h2 with rfl | h3
        · exact .inl rfl
        · rcases ih (by simpa [renderQuery] using h3) with h4 | h5
          · exact .inl h4
          · rcases h5 with h6 | ⟨kv', hkv', hc⟩
            · exact .inr (.inl h6)
            · exact .inr (.inr ⟨kv', List.mem_cons_of_mem _ hkv', hc⟩)

theorem filterMap_qsl_map (prs : List (List Char × List Char))
    (hok : ∀ kv ∈ prs, pairOkB kv = true) :
    ((prs.map (fun kv => kv.1 ++ '=' :: kv.2)).filterMap fun nv =>
      if nv = [] then none
      else
        match splitFirst '=' nv with
        | none => none
        | some (n, v) =>
          if v = [] then none
          else some (unquote (plusToSpace n), unquote (plusToSpace v))) = prs := by
  induction prs with
  | nil => rfl
  | cons kv rest ih =>
    rw [List.map_cons, List.filterMap_cons]
    obtain ⟨_, hk, hv, hvp⟩ := pairOkB_parts (hok kv (List.mem_cons_self _ _))
    rw [qsl_step kv.1 kv.2
      (fun hm => plainOk_mem_ne hk hm (by decide) rfl)
      (fun hm => plainOk_mem_ne hk hm (by decide) rfl)
      (fun hm => plainOk_mem_ne hk hm (by decide) rfl)
      hv
      (fun hm => plainOk_mem_ne hvp hm (by decide) rfl)
      (fun hm => plainOk_mem_ne hvp hm (by decide) rfl)]
    rw [ih (fun z hz => hok z (List.mem_cons_of_mem _ hz))]

/-- parse_qsl inverts renderQuery on canonical pairs. -/
theorem parse_qsl_render (prs : List (List Char × List Char)) (hne : prs ≠ [])
    (hok : ∀ kv ∈ prs, pairOkB kv = true) :
    parse_qsl (renderQuery prs) = prs := by
  unfold parse_qsl renderQuery
  rw [splitOnChar_joinParts _ (by simpa using hne) ?segs]
  case segs =>
    intro x hx
    rcases List.mem_map.mp hx with ⟨kv, hkv, rfl⟩
    obtain ⟨_, hk, _, hv⟩ := pairOkB_parts (hok kv hkv)
    intro hmem
    rcases List.mem_append.mp hmem with h1 | h2
    · exact plainOk_mem_ne hk h1 (by decide) rfl
    · rcases List.mem_cons.mp h2 with he | h3
      · exact absurd he (by decide)
      · exact plainOk_mem_ne hv h3 (by decide) rfl
  exact filterMap_qsl_map prs hok

theorem foldl_qsAdd_fresh (ps : List (List Char × List Char)) :
    ∀ (d : QDict), (ps.map Prod.fst).Nodup →
      (∀ k, k ∈ ps.map Prod.fst → k ∉ d.map Prod.fst) →
      ps.foldl (fun d kv => qsAdd d kv.1 kv.2) d =
        d ++ ps.map (fun kv => (kv.1, (kv.2, []))) := by
  induction ps with
  | nil => intro d _ _; simp
  | cons kv rest ih =>
    intro d hnd hdisj
    rw [List.foldl_cons]
    have hknotin : kv.1 ∉ d.map Prod.fst := hdisj kv.1 (by simp)
    have hadd : qsAdd d kv.1 kv.2 = d ++ [(kv.1, (kv.2, []))] := by
      unfold qsAdd
      rw [if_neg (fun hs => hknotin ((qsHasKey_iff d kv.1).mp hs))]
    rw [List.map_cons] at hnd
    rw [hadd, ih (d ++ [(kv.1, (kv.2, []))]) (List.nodup_cons.mp hnd).2 ?disj]
    · simp
    case disj =>
      intro k hk
      rw [List.map_append]
      intro hmem
      rcases List.mem_append.mp hmem with h1 | h2
      · exact hdisj k (by rw [List.map_cons]; exact List.mem_cons_of_mem _ hk) h1
      · have hkk : k = kv.1 := by simpa using h2
        exact (List.nodup_cons.mp hnd).1 (hkk ▸ hk)

theorem parse_qs_render (prs : List (List Char × List Char)) (hne : prs ≠ [])
    (hok : ∀ kv ∈ prs, pairOkB kv = true) (hnd : (prs.map Prod.fst).Nodup) :
    parse_qs (renderQuery prs) = prs.map (fun kv => (kv.1, (kv.2, []))) := by
  rw [parse_qs, parse_qsl_render prs hne hok,
    foldl_qsAdd_fresh prs [] hnd (by intro k _; simp)]
  simp

theorem filterMap_allow_map (prs : List (List Char × List Char))
    (hok : ∀ kv ∈ prs, pairOkB kv = true) :
    ((prs.map (fun kv => (kv.1, (kv.2, ([] : List (List Char)))))).filterMap fun e =>
      if pyLowerL e.1 ∈ allowNames then some (e.1, e.2.1) else none) = prs := by
  induction prs with
  | nil => rfl
  | cons kv rest ih =>
    rw [List.map_cons, List.filterMap_cons]
    have ha := (pairOkB_parts (hok kv (List.mem_cons_self _ _))).1
    rw [if_pos ha, ih (fun z hz => hok z (List.mem_cons_of_mem _ hz))]

theorem essentialParams_render (prs : List (List Char × List Char)) (hne : prs ≠ [])
    (hok : ∀ kv ∈ prs, pairOkB kv = true) (hnd : (prs.map Prod.fst).Nodup) :
    essentialParams (renderQuery prs) = prs := by
  unfold essentialParams
  rw [parse_qs_render prs hne hok hnd]
  exact filterMap_allow_map prs hok

theorem schemeLowChar_facts {c : Char} (h : schemeLowChar c = true) :
    pyLower c = c ∧ schemeChar c = true ∧ c ≠ ':' ∧ c ≠ '%' ∧
    c.toNat ≠ 9 ∧ c.toNat ≠ 13 ∧ c.toNat ≠ 10 := by
  have hn := of_decide_eq_true h
  refine ⟨?_, decide_eq_true (by omega), ?_, ?_, by omega, by omega, by omega⟩
  · unfold pyLower
    rw [if_neg (by omega), if_neg (by omega)]
  · intro he
    have h58 : c.toNat = 58 := by rw [he]; rfl
    omega
  · intro he
    have h37 : c.toNat = 37 := by rw [he]; rfl
    omega

theorem schemeOkB_parts {s : List Char} (h : schemeOkB s = true) :
    (∀ c ∈ s, schemeLowChar c = true) ∧
    ∃ c0 s', s = c0 :: s' ∧ 97 ≤ c0.toNat ∧ c0.toNat ≤ 122 := by
  rcases s with _ | ⟨c0, s'⟩
  · exact absurd h (by simp [schemeOkB])
  · unfold schemeOkB at h
    simp only [Bool.and_eq_true] at h
    have hc0 := of_decide_eq_true h.1
    exact ⟨fun c hc => List.all_eq_true.mp h.2 c hc, c0, s', rfl, hc0.1, hc0.2⟩

theorem pyLowerL_scheme_id {s : List Char} (h : ∀ c ∈ s, schemeLowChar c = true) :
    pyLowerL s = s :=
  map_self_of (fun c hc => (schemeLowChar_facts (h c hc)).1)

theorem splitScheme_render (s rest0 : List Char) (hs : schemeOkB s = true) :
    splitScheme (s ++ ':' :: rest0) = (s, rest0) := by
  obtain ⟨hall, c0, s', rfl, hc1, hc2⟩ := schemeOkB_parts hs
  have hcolon : ':' ∉ c0 :: s' := by
    intro hm
    exact (schemeLowChar_facts (hall _ hm)).2.2.1 rfl
  have hhead : headAlpha (c0 :: (s' ++ ':' :: rest0)) = true := by
    unfold headAlpha
    show pyIsAlpha c0 = true
    exact decide_eq_true (Or.inr ⟨hc1, hc2⟩)
  have hall' : (c0 :: s').all schemeChar = true := by
    rw [List.all_eq_true]
    intro c hc
    exact (schemeLowChar_facts (hall c hc)).2.1
  simp only [splitScheme, splitFirst_append _ _ hcolon]
  rw [if_pos (by simp [hhead, hall'])]
  rw [pyLowerL_scheme_id hall]

theorem splitNetlocPy_canonical (h rest : List Char)
    (hh : ∀ x ∈ h, netlocEnd x = false)
    (hr : ∀ c, rest.head? = some c → netlocEnd c = true) :
    splitNetlocPy ('/' :: '/' :: (h ++ rest)) = (h, rest) := by
  have hta := takeWhile_append_of (q := fun c => !netlocEnd c) (a := h) (b := rest)
    (fun x hx => by show (!netlocEnd x) = true; rw [hh x hx]; rfl)
    (fun c hc => by show (!netlocEnd c) = false; rw [hr c hc]; rfl)
  show ((h ++ rest).takeWhile (fun c => !netlocEnd c),
    (h ++ rest).dropWhile (fun c => !netlocEnd c)) = (h, rest)
  rw [hta.1, hta.2]

theorem ne_char_of_toNat_ne {c x : Char} (h : c.toNat ≠ x.toNat) : c ≠ x :=
  fun he => h (by rw [he])

theorem pathOkB_parts {p : List Char} (h : pathOkB p = true) :
    (p = [] ∨ ∃ c p', p = c :: p' ∧ c = '/') ∧
    plainOk ['?', '#', '%', ';', '\t', '\r', '\n'] p = true := by
  unfold pathOkB at h
  simp only [Bool.and_eq_true] at h
  refine ⟨?_, h.2⟩
  rcases p with _ | ⟨c, p'⟩
  · exact .inl rfl
  · exact .inr ⟨c, p', rfl, of_decide_eq_true h.1⟩

theorem mem_renderUrl {c : Char} {s h p : List Char}
    {prs : List (List Char × List Char)} (hc : c ∈ renderUrl s h p prs) :
    c ∈ s ∨ c = ':' ∨ c = '/' ∨ c ∈ h ∨ c ∈ p ∨ c = '?' ∨ c ∈ renderQuery prs := by
  unfold renderUrl at hc
  rcases List.mem_append.mp hc with h1 | h2
  · rcases List.mem_append.mp h1 with h3 | h4
    · rcases List.mem_append.mp h3 with h5 | h6
      · rcases List.mem_append.mp h5 with h7 | h8
        · exact .inl h7
        · rcases List.mem_cons.mp h8 with rfl | h9
          · exact .inr (.inl rfl)
          · rcases List.mem_cons.mp h9 with rfl | h10
            · exact .inr (.inr (.inl rfl))
            · rcases List.mem_cons.mp h10 with rfl | h11
              · exact .inr (.inr (.inl rfl))
              · simp at h11
      · exact .inr (.inr (.inr (.inl h6)))
    · exact .inr (.inr (.inr (.inr (.inl h4))))
  · split at h2
    · simp at h2
    · rcases List.mem_cons.mp h2 with rfl | h3
      · exact .inr (.inr (.inr (.inr (.inr (.inl rfl)))))
      · exact .inr (.inr (.inr (.inr (.inr (.inr h3)))))

/-- Every character of a canonical URL avoids the bytes urlsplit strips
and the percent sign. -/
theorem renderUrl_char_ok {s h p : List Char} {prs : List (List Char × List Char)}
    (hs : schemeOkB s = true) (hh : hostOkB h = true) (hp : pathOkB p = true)
    (hprs : ∀ kv ∈ prs, pairOkB kv = true) :
    ∀ c ∈ renderUrl s h p prs,
      c ≠ '\t' ∧ c ≠ '\r' ∧ c ≠ '\n' ∧ c ≠ '%' := by
  intro c hc
  have hh' : plainOk ['/', '?', '#', '[', ']', '%', '\t', '\r', '\n'] h = true := hh
  have hp' := (pathOkB_parts hp).2
  rcases mem_renderUrl hc with h1 | h2 | h3 | h4 | h5 | h6 | h7
  · have hf := schemeLowChar_facts ((schemeOkB_parts hs).1 c h1)
    exact ⟨ne_char_of_toNat_ne hf.2.2.2.2.1, ne_char_of_toNat_ne hf.2.2.2.2.2.1,
      ne_char_of_toNat_ne hf.2.2.2.2.2.2, hf.2.2.2.1⟩
  · subst h2
    exact ⟨by decide, by decide, by decide, by decide⟩
  · subst h3
    exact ⟨by decide, by decide, by decide, by decide⟩
  · exact ⟨plainOk_mem_ne hh' h4 (by decide), plainOk_mem_ne hh' h4 (by decide),
      plainOk_mem_ne hh' h4 (by decide), plainOk_mem_ne hh' h4 (by decide)⟩
  · exact ⟨plainOk_mem_ne hp' h5 (by decide), plainOk_mem_ne hp' h5 (by decide),
      plainOk_mem_ne hp' h5 (by decide), plainOk_mem_ne hp' h5 (by decide)⟩
  · subst h6
    exact ⟨by decide, by decide, by decide, by decide⟩
  · rcases mem_renderQuery c prs h7 with rfl | rfl | ⟨kv, hkv, hck⟩
    · exact ⟨by decide, by decide, by decide, by decide⟩
    · exact ⟨by decide, by decide, by decide, by decide⟩
    · obtain ⟨_, hk, _, hv⟩ := pairOkB_parts (hprs kv hkv)
      rcases hck with hc1 | hc2
      · exact ⟨plainOk_mem_ne hk hc1 (by decide), plainOk_mem_ne hk hc1 (by decide),
          plainOk_mem_ne hk hc1 (by decide), plainOk_mem_ne hk hc1 (by decide)⟩
      · exact ⟨plainOk_mem_ne hv hc2 (by decide), plainOk_mem_ne hv hc2 (by decide),
          plainOk_mem_ne hv hc2 (by decide), plainOk_mem_ne hv hc2 (by decide)⟩

/-- urlsplit recovers the components of a canonical URL. -/
theorem urlsplitCore_render (s h p : List Char) (prs : List (List Char × List Char))
    (hs : schemeOkB s = true) (hh : hostOkB h = true) (hp : pathOkB p = true)
    (hprs : ∀ kv ∈ prs, pairOkB kv = true) :
    urlsplitCore (renderUrl s h p prs) =
      .ok ⟨s, h, p, [], if prs = [] then [] else renderQuery prs, []⟩ := by
  have hh' : plainOk ['/', '?', '#', '[', ']', '%', '\t', '\r', '\n'] h = true := hh
  have hp' := (pathOkB_parts hp).2
  have hchar := renderUrl_char_ok hs hh hp hprs
  have hstrip : stripBytes (renderUrl s h p prs) = renderUrl s h p prs := by
    apply filter_self_of
    intro c hc
    exact decide_eq_true ⟨(hchar c hc).1, (hchar c hc).2.1, (hchar c hc).2.2.1⟩
  have hnorm : renderUrl s h p prs =
      s ++ ':' :: ('/' :: '/' :: (h ++ (p ++
        (if prs = [] then [] else '?' :: renderQuery prs)))) := by
    unfold renderUrl
    simp [List.append_assoc]
  have hnoq : '?' ∉ p := fun hm => plainOk_mem_ne hp' hm (by decide) rfl
  have hnohash : '#' ∉ p ++ (if prs = [] then [] else '?' :: renderQuery prs) := by
    intro hm
    rcases List.mem_append.mp hm with h1 | h2
    · exact plainOk_mem_ne hp' h1 (by decide) rfl
    · split at h2
      · simp at h2
      · rcases List.mem_cons.mp h2 with he | h3
        · exact absurd he (by decide)
        · rcases mem_renderQuery _ prs h3 with he | he | ⟨kv, hkv, hck⟩
          · exact absurd he (by decide)
          · exact absurd he (by decide)
          · obtain ⟨_, hk, _, hv⟩ := pairOkB_parts (hprs kv hkv)
            rcases hck with hc1 | hc2
            · exact plainOk_mem_ne hk hc1 (by decide) rfl
            · exact plainOk_mem_ne hv hc2 (by decide) rfl
  have h2 := splitScheme_render s
    ('/' :: '/' :: (h ++ (p ++ (if prs = [] then [] else '?' :: renderQuery prs)))) hs
  have h3 : splitNetlocPy
      ('/' :: '/' :: (h ++ (p ++ (if prs = [] then [] else '?' :: renderQuery prs)))) =
      (h, p ++ (if prs = [] then [] else '?' :: renderQuery prs)) := by
    apply splitNetlocPy_canonical
    · intro x hx
      have d1 := plainOk_mem_ne hh' hx (show '/' ∈ _ by decide)
      have d2 := plainOk_mem_ne hh' hx (show '?' ∈ _ by decide)
      have d3 := plainOk_mem_ne hh' hx (show '#' ∈ _ by decide)
      simp [netlocEnd, d1, d2, d3]
    · intro c hc
      rcases (pathOkB_parts hp).1 with rfl | ⟨c0, p', rfl, rfl⟩
      · rw [List.nil_append] at hc
        split at hc
        · simp at hc
        · have hcq : '?' = c := by simpa using hc
          subst hcq
          decide
      · have hcs : '/' = c := by simpa using hc
        subst hcs
        decide
  have h4 : bracketBad h = false := by
    apply decide_eq_false
    rintro (⟨hl, _⟩ | ⟨hr, _⟩)
    · exact plainOk_mem_ne hh' hl (by decide) rfl
    · exact plainOk_mem_ne hh' hr (by decide) rfl
  have h5 : splitFragment
      (p ++ (if prs = [] then [] else '?' :: renderQuery prs)) =
      (p ++ (if prs = [] then [] else '?' :: renderQuery prs), []) := by
    unfold splitFragment
    rw [splitFirst_not_mem hnohash]
  have h6 : splitQuery (p ++ (if prs = [] then [] else '?' :: renderQuery prs)) =
      (p, if prs = [] then [] else renderQuery prs) := by
    by_cases hpe : prs = []
    · rw [if_pos hpe, if_pos hpe, List.append_nil]
      unfold splitQuery
      rw [splitFirst_not_mem hnoq]
    · rw [if_neg hpe, if_neg hpe]
      unfold splitQuery
      rw [splitFirst_append p _ hnoq]
  rw [urlsplitCore, hstrip, hnorm]
  simp only [h2, h3, h4, h5, h6]
  rfl

/-- urlparse recovers the components of a canonical URL (no params are
split off since the canonical path has no semicolon). -/
theorem urlparse_render (s h p : List Char) (prs : List (List Char × List Char))
    (hs : schemeOkB s = true) (hh : hostOkB h = true) (hp : pathOkB p = true)
    (hprs : ∀ kv ∈ prs, pairOkB kv = true) :
    urlparse (renderUrl s h p prs) =
      .ok ⟨s, h, p, [], if prs = [] then [] else renderQuery prs, []⟩ := by
  have hsemi : ';' ∉ p := fun hm =>
    plainOk_mem_ne (pathOkB_parts hp).2 hm (by decide) rfl
  rw [urlparse, urlsplitCore_render s h p prs hs hh hp hprs]
  simp only []
  rw [if_neg (fun hand => hsemi hand.2)]

/-- assemble maps the canonical components back to the canonical URL. -/
theorem assemble_render (s h p : List Char) (prs : List (List Char × List Char))
    (hprs : ∀ kv ∈ prs, pairOkB kv = true) (hnd : (prs.map Prod.fst).Nodup) :
    assemble ⟨s, h, p, [], if prs = [] then [] else renderQuery prs, []⟩ =
      renderUrl s h p prs := by
  by_cases hpe : prs = []
  · subst hpe
    rw [assemble]
    have hq : essentialParams (if ([] : List (List Char × List Char)) = [] then []
        else renderQuery []) = [] := rfl
    rw [hq, if_pos rfl, renderUrl]
    simp
  · rw [assemble]
    have hq : essentialParams (if prs = [] then [] else renderQuery prs) = prs := by
      rw [if_neg hpe]
      exact essentialParams_render prs hpe hprs hnd
    rw [hq, if_neg hpe, renderUrl, if_neg hpe]
    simp [hpe]

/-- A URL containing none of the three affiliate patterns passes the
wrapper chain unchanged. -/
theorem unwrapped_no_wrapper (u : List Char)
    (hw1 : containsStr wrapShopmy u = false)
    (hw2 : containsStr wrapCj u = false)
    (hw3 : containsStr wrapLs u = false) :
    unwrapped u = .ok u := by
  rw [unwrapped]
  simp [hw1, hw2, hw3]

/-- clean_url fixes every canonical URL: lowercase scheme, plain host
and path, distinct allow-listed keys with plain nonempty values, and no
affiliate-wrapper substring. -/
theorem clean_url_render_fixed (s h p : List Char) (prs : List (List Char × List Char))
    (hs : schemeOkB s = true) (hh : hostOkB h = true) (hp : pathOkB p = true)
    (hprs : ∀ kv ∈ prs, pairOkB kv = true) (hnd : (prs.map Prod.fst).Nodup)
    (hw1 : containsStr wrapShopmy (renderUrl s h p prs) = false)
    (hw2 : containsStr wrapCj (renderUrl s h p prs) = false)
    (hw3 : containsStr wrapLs (renderUrl s h p prs) = false) :
    clean_url (renderUrl s h p prs) = renderUrl s h p prs := by
  have hpct : '%' ∉ renderUrl s h p prs := fun hm =>
    (renderUrl_char_ok hs hh hp hprs '%' hm).2.2.2 rfl
  rw [clean_url, unwrapped_no_wrapper _ hw1 hw2 hw3]
  simp only [unquote_id hpct, urlparse_render s h p prs hs hh hp hprs,
    assemble_render s h p prs hprs hnd]

/-- C3 amended: clean_url is idempotent at every input whose canonical
output is percent-free and in canonical shape (lowercase scheme,
delimiter-free host and path, distinct allow-listed query keys with
plain nonempty values, no affiliate-wrapper substring); in general a
second application percent-decodes the output again (see the
counterexample). -/
theorem clean_url_idempotent_on_canonical (u s h p : List Char)
    (prs : List (List Char × List Char))
    (hu : clean_url u = renderUrl s h p prs)
    (hs : schemeOkB s = true) (hh : hostOkB h = true) (hp : pathOkB p = true)
    (hprs : ∀ kv ∈ prs, pairOkB kv = true) (hnd : (prs.map Prod.fst).Nodup)
    (hw1 : containsStr wrapShopmy (renderUrl s h p prs) = false)
    (hw2 : containsStr wrapCj (renderUrl s h p prs) = false)
    (hw3 : containsStr wrapLs (renderUrl s h p prs) = false) :
    clean_url (clean_url u) = clean_url u := by
  rw [hu, clean_url_render_fixed s h p prs hs hh hp hprs hnd hw1 hw2 hw3]

/-- C3 witness: idempotence on a tracking-laden input whose canonical
output https://store.example.com/item?variant=red is canonical. -/
theorem clean_url_idempotent_on_canonical_witness :
    clean_url (clean_url "https://store.example.com/item?variant=red&utm_source=ig".data) =
      clean_url "https://store.example.com/item?variant=red&utm_source=ig".data :=
  clean_url_idempotent_on_canonical
    "https://store.example.com/item?variant=red&utm_source=ig".data
    "https".data "store.example.com".data "/item".data
    [("variant".data, "red".data)]
    (by rfl) (by rfl) (by rfl) (by rfl)
    (by decide) (by decide) (by rfl) (by rfl) (by rfl)
